import Mathlib

/-!
Shallow embedding of `src/tcp_server.rs` (mic2net): a TCP push server with
bounded admission, per-connection handlers racing write/read/shutdown, and a
two-phase coordinated shutdown.  Machine integers that matter here (backoff
counters, byte counts, permit counts) never approach overflow in the modelled
scenarios, so they are embedded as `Nat`.  Fallible operations are embedded as
`Except String`; futures that may stay suspended are embedded as `Option`
results (`none` = still suspended when the supplied event sequence runs out).
-/

namespace Mic2Net

/-- Decidable equality for `Except`, used to make the event types of the
embedding decidable. -/
instance exceptDecEq {ε α : Type} [DecidableEq ε] [DecidableEq α] :
    DecidableEq (Except ε α) := fun x y =>
  match x, y with
  | Except.ok a, Except.ok b =>
      if h : a = b then Decidable.isTrue (by rw [h])
      else Decidable.isFalse (fun hc => h (by injection hc))
  | Except.error a, Except.error b =>
      if h : a = b then Decidable.isTrue (by rw [h])
      else Decidable.isFalse (fun hc => h (by injection hc))
  | Except.ok _, Except.error _ => Decidable.isFalse (fun hc => Except.noConfusion hc)
  | Except.error _, Except.ok _ => Decidable.isFalse (fun hc => Except.noConfusion hc)

/-! ### Per-connection handler: `SocketHandler::run` (lines 117-135)

The body is `while !self.shutdown { notified().await; tokio::select! { ... } }`.
One element of the outer input list stands for one loop iteration: the
readiness notification fired and then the three racing futures resolve in the
order given by the inner list.  The branch patterns are taken from the source:
`_ = write_packet()` matches any result (the result is discarded),
`Ok(read_size) = read_packet()` matches only an `Ok` resolution - an `Err`
resolution leaves that branch unmatched and the select keeps waiting on the
remaining branches - and `_ = shutdown_signal.recv()` matches any resolution
of the broadcast receiver. -/

/-- Resolution of one of the three futures raced by the select in
`SocketHandler::run`: the write attempt (with its discarded result), the read
attempt (with its `read_packet` result), or the shutdown broadcast receiver. -/
inductive SelectOutcome
  | writeDone (res : Except String Unit)
  | readDone (res : Except String Nat)
  | shutdownRecv
deriving DecidableEq

/-- The select branch that actually runs. -/
inductive Resolved
  | wrote
  | readOk (n : Nat)
  | shutdown
deriving DecidableEq

/-- Which branch body runs, given the order in which the raced futures
resolve: the first resolution whose branch pattern matches wins; a `readDone
(.error _)` resolution matches no pattern (the pattern is `Ok(read_size)`), so
that branch is disabled and the select keeps waiting.  `none` means every
supplied resolution was a failed read: the select is still pending. -/
def selectResolve : List SelectOutcome → Option Resolved
  | [] => none
  | SelectOutcome.writeDone _ :: _ => some Resolved.wrote
  | SelectOutcome.readDone (Except.ok n) :: _ => some (Resolved.readOk n)
  | SelectOutcome.readDone (Except.error _) :: rest => selectResolve rest
  | SelectOutcome.shutdownRecv :: _ => some Resolved.shutdown

/-- `SocketHandler::run` (lines 117-135).  First argument is the `shutdown`
field; the list supplies, per loop iteration, the resolution order of the
raced futures.  Returns `none` when the handler is still suspended (parked in
`notified().await` or in a select whose matching branches never resolved),
otherwise `some` of the `crate::Result<()>` value returned. -/
def socketHandlerRun : Bool → List (List SelectOutcome) → Option (Except String Unit)
  | true, _ => some (Except.ok ())
  | false, [] => none
  | false, iter :: rest =>
    match selectResolve iter with
    | none => none
    | some Resolved.wrote => socketHandlerRun false rest
    | some (Resolved.readOk n) =>
        if n = 0 then some (Except.ok ()) else socketHandlerRun false rest
    | some Resolved.shutdown => some (Except.ok ())

/-! ### Listener accept with backoff: `TcpServer::accept` (lines 83-102)

Each element of the list is the result of one `listener.accept().await`
attempt (`Ok` yields the socket, embedded as `Unit`).  The returned `Nat` is
the total time slept (`time::sleep(Duration::from_secs(backoff))`), in
seconds.  `none` means the attempt list ran out while the loop was still
awaiting the next accept. -/

/-- The retry loop of `TcpServer::accept`, starting from the given `backoff`
value.  Mirrors the source exactly: on `Ok` return the socket at once; on
`Err` return the error if `backoff > 64`, otherwise sleep `backoff` seconds,
double `backoff`, and retry. -/
def acceptFrom : List (Except String Unit) → Nat → Option (Except String Unit × Nat)
  | [], _ => none
  | Except.ok s :: _, _ => some (Except.ok s, 0)
  | Except.error e :: rest, backoff =>
    if backoff > 64 then some (Except.error e, 0)
    else
      match acceptFrom rest (backoff * 2) with
      | none => none
      | some (r, d) => some (r, backoff + d)

/-- `TcpServer::accept`: `let mut backoff = 1;` then the retry loop. -/
def acceptLoop (attempts : List (Except String Unit)) : Option (Except String Unit × Nat) :=
  acceptFrom attempts 1

/-! ### One iteration of the listener loop: `TcpServer::run` (lines 48-80)

The loop body, in source order: acquire an owned permit from the semaphore
(suspending while none is available), `self.accept().await?`,
`socket.set_nodelay(true)?`, `socket.peer_addr().unwrap()`, split the socket,
build the handler, `tokio::spawn` the handler task.  The iteration is embedded
as a function of the three fallible results, returning the ordered action
trace together with the iteration outcome. -/

/-- The observable actions of one listener-loop iteration, in program order. -/
inductive ListenerAct
  | acquirePermit
  | acceptConn
  | setNodelay
  | peerAddr
  | spawnHandler
deriving DecidableEq, BEq

/-- Outcome of one listener-loop iteration: a handler task was spawned for the
given peer address (loop continues), or `run` returned `Err` via `?` (the
error propagates out of `TcpServer::run`), or the `unwrap` on `peer_addr`
panicked. -/
inductive IterOutcome
  | spawned (peer : String)
  | listenerErr (e : String)
  | unwrapFailure
deriving DecidableEq

/-- One iteration of the listener loop in `TcpServer::run`, given the results
of `accept`, `set_nodelay` and `peer_addr`.  The permit acquisition comes
first, before `accept` is even called, exactly as in the source (lines
49-55). -/
def listenerIteration (acceptRes nodelayRes : Except String Unit)
    (peerAddrRes : Option String) : List ListenerAct × IterOutcome :=
  match acceptRes with
  | Except.error e => ([ListenerAct.acquirePermit, ListenerAct.acceptConn],
      IterOutcome.listenerErr e)
  | Except.ok _ =>
    match nodelayRes with
    | Except.error e =>
        ([ListenerAct.acquirePermit, ListenerAct.acceptConn, ListenerAct.setNodelay],
          IterOutcome.listenerErr e)
    | Except.ok _ =>
      match peerAddrRes with
      | none =>
          ([ListenerAct.acquirePermit, ListenerAct.acceptConn, ListenerAct.setNodelay,
            ListenerAct.peerAddr], IterOutcome.unwrapFailure)
      | some addr =>
          ([ListenerAct.acquirePermit, ListenerAct.acceptConn, ListenerAct.setNodelay,
            ListenerAct.peerAddr, ListenerAct.spawnHandler], IterOutcome.spawned addr)

/-! ### Whole-server transition system

State of the server process as far as admission, shutdown and drain are
concerned: the semaphore `limit_connections` (capacity, free permits, closed
flag - the program never calls `close`, so no action sets the flag), the
listener task (whether it currently holds an as-yet-unspawned permit, and
whether `TcpServer::run` has stopped, by error propagation or by the
`tokio::select!` in `start_server` dropping it), the spawned handler tasks
(each parked in `notified().await`, racing in the select, or exited), and the
coordinator (whether `notify_shutdown` and `shutdown_complete_tx` have been
dropped, lines 172-173, and whether `shutdown_complete_rx.recv()` has
resolved, line 174). -/

/-- Phase of one spawned handler task.  `parked` = suspended in
`notified().await`; `racing` = inside the `tokio::select!`; `exited` = the
spawned task finished: `handler.run()` returned (or the task failed), the
permit was dropped, and the handler with its `_shutdown_complete` clone was
dropped. -/
inductive HPhase
  | parked
  | racing
  | exited
deriving DecidableEq

/-- Whether a handler task still holds its permit and completion-sender
clone. -/
def isActive : HPhase → Bool
  | HPhase.exited => false
  | _ => true

/-- Number of handler tasks that have not exited. -/
def countActive (hs : List HPhase) : Nat := hs.countP isActive

/-- Server-process state for the admission/shutdown protocol. -/
structure SysState where
  capacity : Nat
  available : Nat
  semClosed : Bool
  listenerHoldsPermit : Bool
  listenerDone : Bool
  handlers : List HPhase
  coordDropped : Bool
  drained : Bool
deriving DecidableEq

/-- Permits currently held outside the semaphore: the listener's in-hand
permit plus one per non-exited handler task. -/
def heldPermits (s : SysState) : Nat :=
  (if s.listenerHoldsPermit then 1 else 0) + countActive s.handlers

/-- Atomic program steps of the listener, the handler tasks and the
coordinator. -/
inductive Action
  | acquire
  | spawn
  | listenerStop
  | wake (i : Nat)
  | raceContinue (i : Nat)
  | handlerExit (i : Nat)
  | coordDrop
  | drainRecv
deriving DecidableEq

/-- What `acquire_owned().await` yields once it resolves: `Err(AcquireError)`
exactly when the semaphore has been closed, `Ok(permit)` otherwise.  The
`unwrap()` on line 54 panics exactly on the `error` case. -/
def acquireOwnedResult (s : SysState) : Except String Unit :=
  if s.semClosed then Except.error "semaphore closed" else Except.ok ()

/-- One small step of the system; `none` when the action's guard does not hold
(the corresponding code point is not enabled in state `s`).
Guards mirror the source:
`acquire` - the listener loop, not yet stopped and not already holding a
permit, resolves `acquire_owned().await` (needs a free permit; the semaphore
is never closed, so the `unwrap` is on the `Ok` branch);
`spawn` - lines 58-79: the held permit moves into the spawned handler task,
which starts parked in `notified().await`;
`listenerStop` - `TcpServer::run` stops, either by `?`-propagating an
accept/nodelay error or because `start_server`'s select dropped it; a permit
held but not yet moved into a spawned task is dropped back to the semaphore;
`wake i` - `notify_data_ready` wakes handler `i` out of `notified().await`;
`raceContinue i` - handler `i`'s select resolved without exiting (write done,
or read of `n > 0` bytes): back to the top of the `while` loop;
`handlerExit i` - handler `i`'s task finishes (EOF return, shutdown return, or
task failure): `drop(permit)` on line 78 returns one permit, and the dropped
handler releases its `_shutdown_complete` clone;
`coordDrop` - lines 166-173: after the phase-1 select is over,
`notify_shutdown` and `shutdown_complete_tx` are dropped;
`drainRecv` - line 174: `shutdown_complete_rx.recv()` resolves with `None`,
which the mpsc channel does exactly when every sender clone has been dropped:
the coordinator's own clone and one per non-exited handler. -/
def step (s : SysState) : Action → Option SysState
  | Action.acquire =>
    if s.listenerDone || s.listenerHoldsPermit || s.semClosed || s.available == 0 then none
    else some { s with available := s.available - 1, listenerHoldsPermit := true }
  | Action.spawn =>
    if s.listenerDone || !s.listenerHoldsPermit then none
    else some { s with handlers := s.handlers ++ [HPhase.parked], listenerHoldsPermit := false }
  | Action.listenerStop =>
    if s.listenerDone then none
    else some { s with listenerDone := true,
                       listenerHoldsPermit := false,
                       available := s.available + (if s.listenerHoldsPermit then 1 else 0) }
  | Action.wake i =>
    match s.handlers[i]? with
    | some HPhase.parked => some { s with handlers := s.handlers.set i HPhase.racing }
    | _ => none
  | Action.raceContinue i =>
    match s.handlers[i]? with
    | some HPhase.racing => some { s with handlers := s.handlers.set i HPhase.parked }
    | _ => none
  | Action.handlerExit i =>
    match s.handlers[i]? with
    | some HPhase.racing =>
        some { s with handlers := s.handlers.set i HPhase.exited,
                      available := s.available + 1 }
    | _ => none
  | Action.coordDrop =>
    if s.listenerDone && !s.coordDropped then some { s with coordDropped := true } else none
  | Action.drainRecv =>
    if s.coordDropped && !s.drained && s.handlers.all (fun h => h == HPhase.exited)
    then some { s with drained := true } else none

/-- State right after `TcpServer::new` (line 36: `Semaphore::new(max_clients)`)
and before any connection: all permits free, no handlers, nothing dropped. -/
def initState (maxClients : Nat) : SysState :=
  { capacity := maxClients, available := maxClients, semClosed := false,
    listenerHoldsPermit := false, listenerDone := false, handlers := [],
    coordDropped := false, drained := false }

/-- Run a sequence of steps; `none` as soon as one is not enabled. -/
def runActions (s : SysState) : List Action → Option SysState
  | [] => some s
  | a :: rest =>
    match step s a with
    | some s2 => runActions s2 rest
    | none => none

/-- Conservation of semaphore permits: free permits plus held permits equal
the capacity fixed at construction. -/
def permitInv (s : SysState) : Prop :=
  s.available + heldPermits s = s.capacity

/-- The coordinator drops its senders only after the phase-1 select is over,
and `recv()` resolves only after the drop and with every handler exited. -/
def drainInv (s : SysState) : Prop :=
  (s.coordDropped = true → s.listenerDone = true)
  ∧ (s.drained = true → s.coordDropped = true ∧ ∀ x ∈ s.handlers, x = HPhase.exited)

/-! ### Concrete states for witness runs -/

/-- Final state of the witness run for drain completeness. -/
def stateAfterDrain : SysState :=
  { capacity := 2, available := 2, semClosed := false, listenerHoldsPermit := false,
    listenerDone := true, handlers := [HPhase.exited], coordDropped := true,
    drained := true }

/-- Final state of the witness run for the admission bound. -/
def stateOneRacing : SysState :=
  { capacity := 1, available := 0, semClosed := false, listenerHoldsPermit := false,
    listenerDone := false, handlers := [HPhase.racing], coordDropped := false,
    drained := false }

/-- Final state of the witness run for permit conservation. -/
def stateOneExited : SysState :=
  { capacity := 1, available := 1, semClosed := false, listenerHoldsPermit := false,
    listenerDone := false, handlers := [HPhase.exited], coordDropped := false,
    drained := false }

/-- Start state of the witness run for the parked handler: one parked handler,
listener stopped, coordinator senders not yet dropped. -/
def stateOneParked : SysState :=
  { capacity := 1, available := 0, semClosed := false, listenerHoldsPermit := false,
    listenerDone := true, handlers := [HPhase.parked], coordDropped := false,
    drained := false }

/-- The same state after the coordinator dropped its senders. -/
def stateOneParkedDropped : SysState :=
  { capacity := 1, available := 0, semClosed := false, listenerHoldsPermit := false,
    listenerDone := true, handlers := [HPhase.parked], coordDropped := true,
    drained := false }

/-- Final state of the witness run for the acquire unwrap. -/
def stateOneAcquired : SysState :=
  { capacity := 1, available := 0, semClosed := false, listenerHoldsPermit := true,
    listenerDone := false, handlers := [], coordDropped := false,
    drained := false }

/-! ### Helper lemmas on lists -/

/-- An element read off a list by index is a member of the list. -/
theorem mem_of_index {α : Type} {l : List α} {i : Nat} {a : α}
    (h : l[i]? = some a) : a ∈ l := by
  obtain ⟨hlt, rfl⟩ := List.getElem?_eq_some.mp h
  exact List.getElem_mem hlt

/-- Overwriting an entry with one of the same predicate value keeps the
count. -/
theorem countP_set_congr {α : Type} (p : α → Bool) :
    ∀ (l : List α) (i : Nat) (a b : α), l[i]? = some a → p a = p b →
      (l.set i b).countP p = l.countP p
  | [], i, a, b, h, _ => by simp at h
  | x :: xs, 0, a, b, h, hp => by
      simp only [List.getElem?_cons_zero, Option.some.injEq] at h
      subst h
      simp [List.countP_cons, hp]
  | x :: xs, i + 1, a, b, h, hp => by
      simp only [List.getElem?_cons_succ] at h
      simp [List.countP_cons, countP_set_congr p xs i a b h hp]

/-- Overwriting a counted entry with an uncounted one drops the count by
one. -/
theorem countP_set_decr {α : Type} (p : α → Bool) :
    ∀ (l : List α) (i : Nat) (a b : α), l[i]? = some a → p a = true → p b = false →
      (l.set i b).countP p + 1 = l.countP p
  | [], i, a, b, h, _, _ => by simp at h
  | x :: xs, 0, a, b, h, hpa, hpb => by
      simp only [List.getElem?_cons_zero, Option.some.injEq] at h
      subst h
      simp [List.countP_cons, hpa, hpb]
  | x :: xs, i + 1, a, b, h, hpa, hpb => by
      simp only [List.getElem?_cons_succ] at h
      have ih := countP_set_decr p xs i a b h hpa hpb
      simp only [List.set_cons_succ, List.countP_cons]
      omega

/-! ### Permit conservation -/

/-- Every enabled step preserves permit conservation and never changes the
capacity. -/
theorem step_permitInv {s s' : SysState} {a : Action} (hstep : step s a = some s')
    (hinv : permitInv s) : permitInv s' ∧ s'.capacity = s.capacity := by
  cases a with
  | acquire =>
      simp only [step] at hstep
      split at hstep
      · exact Option.noConfusion hstep
      · next hg =>
          injection hstep with hs'
          subst hs'
          have hheld : s.listenerHoldsPermit = false := by
            rcases Bool.eq_false_or_eq_true s.listenerHoldsPermit with h | h
            · exact absurd (by simp [h]) hg
            · exact h
          have hav : 0 < s.available := by
            rcases Nat.eq_zero_or_pos s.available with h | h
            · exact absurd (by simp [h]) hg
            · exact h
          refine ⟨?_, rfl⟩
          simp only [permitInv, heldPermits, hheld] at hinv ⊢
          simp only [if_true, Bool.false_eq_true, if_false] at hinv ⊢
          omega
  | spawn =>
      simp only [step] at hstep
      split at hstep
      · exact Option.noConfusion hstep
      · next hg =>
          injection hstep with hs'
          subst hs'
          have hheld : s.listenerHoldsPermit = true := by
            rcases Bool.eq_false_or_eq_true s.listenerHoldsPermit with h | h
            · exact h
            · exact absurd (by simp [h]) hg
          refine ⟨?_, rfl⟩
          simp only [permitInv, heldPermits, countActive, hheld] at hinv ⊢
          simp only [List.countP_append, List.countP_cons, List.countP_nil, isActive,
            if_true, Bool.false_eq_true, if_false] at hinv ⊢
          omega
  | listenerStop =>
      simp only [step] at hstep
      split at hstep
      · exact Option.noConfusion hstep
      · injection hstep with hs'
        subst hs'
        refine ⟨?_, rfl⟩
        simp only [permitInv, heldPermits] at hinv ⊢
        simp only [Bool.false_eq_true, if_false]
        rcases Bool.eq_false_or_eq_true s.listenerHoldsPermit with h | h <;>
          simp only [h, if_true, Bool.false_eq_true, if_false] at hinv ⊢ <;> omega
  | wake i =>
      simp only [step] at hstep
      cases hget : s.handlers[i]? with
      | none => rw [hget] at hstep; exact Option.noConfusion hstep
      | some ph =>
          rw [hget] at hstep
          cases ph with
          | parked =>
              injection hstep with hs'
              subst hs'
              have hc := countP_set_congr isActive s.handlers i HPhase.parked HPhase.racing
                hget rfl
              refine ⟨?_, rfl⟩
              simp only [permitInv, heldPermits, countActive] at hinv ⊢
              rw [hc]
              exact hinv
          | racing => exact Option.noConfusion hstep
          | exited => exact Option.noConfusion hstep
  | raceContinue i =>
      simp only [step] at hstep
      cases hget : s.handlers[i]? with
      | none => rw [hget] at hstep; exact Option.noConfusion hstep
      | some ph =>
          rw [hget] at hstep
          cases ph with
          | racing =>
              injection hstep with hs'
              subst hs'
              have hc := countP_set_congr isActive s.handlers i HPhase.racing HPhase.parked
                hget rfl
              refine ⟨?_, rfl⟩
              simp only [permitInv, heldPermits, countActive] at hinv ⊢
              rw [hc]
              exact hinv
          | parked => exact Option.noConfusion hstep
          | exited => exact Option.noConfusion hstep
  | handlerExit i =>
      simp only [step] at hstep
      cases hget : s.handlers[i]? with
      | none => rw [hget] at hstep; exact Option.noConfusion hstep
      | some ph =>
          rw [hget] at hstep
          cases ph with
          | racing =>
              injection hstep with hs'
              subst hs'
              have hc := countP_set_decr isActive s.handlers i HPhase.racing HPhase.exited
                hget rfl rfl
              refine ⟨?_, rfl⟩
              simp only [permitInv, heldPermits, countActive] at hinv ⊢
              omega
          | parked => exact Option.noConfusion hstep
          | exited => exact Option.noConfusion hstep
  | coordDrop =>
      simp only [step] at hstep
      split at hstep
      · injection hstep with hs'
        subst hs'
        exact ⟨hinv, rfl⟩
      · exact Option.noConfusion hstep
  | drainRecv =>
      simp only [step] at hstep
      split at hstep
      · injection hstep with hs'
        subst hs'
        exact ⟨hinv, rfl⟩
      · exact Option.noConfusion hstep

/-- Permit conservation holds along any run of enabled steps. -/
theorem runActions_permitInv : ∀ (acts : List Action) {s s' : SysState},
    runActions s acts = some s' → permitInv s → permitInv s' ∧ s'.capacity = s.capacity
  | [], s, s', h, hinv => by
      simp only [runActions, Option.some.injEq] at h
      subst h
      exact ⟨hinv, rfl⟩
  | a :: rest, s, s', h, hinv => by
      simp only [runActions] at h
      cases hstep : step s a with
      | none => rw [hstep] at h; exact Option.noConfusion h
      | some s2 =>
          rw [hstep] at h
          obtain ⟨hi2, hc2⟩ := step_permitInv hstep hinv
          obtain ⟨hi3, hc3⟩ := runActions_permitInv rest h hi2
          exact ⟨hi3, hc3.trans hc2⟩

/-! ### Drain invariant -/

/-- Every enabled step preserves the drain invariant. -/
theorem step_drainInv {s s' : SysState} {a : Action} (hstep : step s a = some s')
    (hinv : drainInv s) : drainInv s' := by
  obtain ⟨hcd, hdr⟩ := hinv
  cases a with
  | acquire =>
      simp only [step] at hstep
      split at hstep
      · exact Option.noConfusion hstep
      · injection hstep with hs'
        subst hs'
        exact ⟨hcd, hdr⟩
  | spawn =>
      simp only [step] at hstep
      split at hstep
      · exact Option.noConfusion hstep
      · next hg =>
          injection hstep with hs'
          subst hs'
          have hld : s.listenerDone = false := by
            rcases Bool.eq_false_or_eq_true s.listenerDone with h | h
            · exact absurd (by simp [h]) hg
            · exact h
          refine ⟨hcd, fun hd => ?_⟩
          have := (hdr hd).1
          have := hcd this
          rw [hld] at this
          exact Bool.noConfusion this
  | listenerStop =>
      simp only [step] at hstep
      split at hstep
      · exact Option.noConfusion hstep
      · injection hstep with hs'
        subst hs'
        exact ⟨fun _ => rfl, hdr⟩
  | wake i =>
      simp only [step] at hstep
      cases hget : s.handlers[i]? with
      | none => rw [hget] at hstep; exact Option.noConfusion hstep
      | some ph =>
          rw [hget] at hstep
          cases ph with
          | parked =>
              injection hstep with hs'
              subst hs'
              refine ⟨hcd, fun hd => ?_⟩
              have hall := (hdr hd).2
              have hmem := mem_of_index hget
              exact absurd (hall _ hmem) (by simp)
          | racing => exact Option.noConfusion hstep
          | exited => exact Option.noConfusion hstep
  | raceContinue i =>
      simp only [step] at hstep
      cases hget : s.handlers[i]? with
      | none => rw [hget] at hstep; exact Option.noConfusion hstep
      | some ph =>
          rw [hget] at hstep
          cases ph with
          | racing =>
              injection hstep with hs'
              subst hs'
              refine ⟨hcd, fun hd => ?_⟩
              have hall := (hdr hd).2
              have hmem := mem_of_index hget
              exact absurd (hall _ hmem) (by simp)
          | parked => exact Option.noConfusion hstep
          | exited => exact Option.noConfusion hstep
  | handlerExit i =>
      simp only [step] at hstep
      cases hget : s.handlers[i]? with
      | none => rw [hget] at hstep; exact Option.noConfusion hstep
      | some ph =>
          rw [hget] at hstep
          cases ph with
          | racing =>
              injection hstep with hs'
              subst hs'
              refine ⟨hcd, fun hd => ?_⟩
              have hall := (hdr hd).2
              have hmem := mem_of_index hget
              exact absurd (hall _ hmem) (by simp)
          | parked => exact Option.noConfusion hstep
          | exited => exact Option.noConfusion hstep
  | coordDrop =>
      simp only [step] at hstep
      split at hstep
      · next hg =>
          injection hstep with hs'
          subst hs'
          have hld : s.listenerDone = true := by
            rcases Bool.eq_false_or_eq_true s.listenerDone with h | h
            · exact h
            · exact absurd hg (by simp [h])
          exact ⟨fun _ => hld, fun hd => ⟨rfl, (hdr hd).2⟩⟩
      · exact Option.noConfusion hstep
  | drainRecv =>
      simp only [step] at hstep
      split at hstep
      · next hg =>
          injection hstep with hs'
          subst hs'
          simp only [Bool.and_eq_true] at hg
          obtain ⟨⟨hcd2, -⟩, hall⟩ := hg
          refine ⟨fun _ => hcd hcd2, fun _ => ⟨hcd2, fun x hx => ?_⟩⟩
          have := List.all_eq_true.mp hall x hx
          exact eq_of_beq this
      · exact Option.noConfusion hstep

/-- The drain invariant holds along any run of enabled steps. -/
theorem runActions_drainInv : ∀ (acts : List Action) {s s' : SysState},
    runActions s acts = some s' → drainInv s → drainInv s'
  | [], s, s', h, hinv => by
      simp only [runActions, Option.some.injEq] at h
      subst h
      exact hinv
  | a :: rest, s, s', h, hinv => by
      simp only [runActions] at h
      cases hstep : step s a with
      | none => rw [hstep] at h; exact Option.noConfusion h
      | some s2 =>
          rw [hstep] at h
          exact runActions_drainInv rest h (step_drainInv hstep hinv)

/-! ### A parked handler is only moved by its wake -/

/-- Any step other than `wake i` leaves handler `i` parked, and cannot be the
drain resolution while handler `i` is parked. -/
theorem step_parked {s s' : SysState} {a : Action} {i : Nat}
    (hstep : step s a = some s') (hne : a ≠ Action.wake i)
    (hp : s.handlers[i]? = some HPhase.parked) (hd : s.drained = false) :
    s'.handlers[i]? = some HPhase.parked ∧ s'.drained = false := by
  have hlen : i < s.handlers.length := (List.getElem?_eq_some.mp hp).1
  cases a with
  | acquire =>
      simp only [step] at hstep
      split at hstep
      · exact Option.noConfusion hstep
      · injection hstep with hs'; subst hs'; exact ⟨hp, hd⟩
  | spawn =>
      simp only [step] at hstep
      split at hstep
      · exact Option.noConfusion hstep
      · injection hstep with hs'
        subst hs'
        exact ⟨(List.getElem?_append_left hlen).trans hp, hd⟩
  | listenerStop =>
      simp only [step] at hstep
      split at hstep
      · exact Option.noConfusion hstep
      · injection hstep with hs'; subst hs'; exact ⟨hp, hd⟩
  | wake j =>
      simp only [step] at hstep
      cases hget : s.handlers[j]? with
      | none => rw [hget] at hstep; exact Option.noConfusion hstep
      | some ph =>
          rw [hget] at hstep
          cases ph with
          | parked =>
              injection hstep with hs'
              subst hs'
              have hji : j ≠ i := fun hji => hne (by rw [hji])
              exact ⟨(List.getElem?_set_ne hji).trans hp, hd⟩
          | racing => exact Option.noConfusion hstep
          | exited => exact Option.noConfusion hstep
  | raceContinue j =>
      simp only [step] at hstep
      cases hget : s.handlers[j]? with
      | none => rw [hget] at hstep; exact Option.noConfusion hstep
      | some ph =>
          rw [hget] at hstep
          cases ph with
          | racing =>
              injection hstep with hs'
              subst hs'
              have hji : j ≠ i := by
                intro hji
                rw [hji, hp] at hget
                exact absurd (Option.some.inj hget) (by simp)
              exact ⟨(List.getElem?_set_ne hji).trans hp, hd⟩
          | parked => exact Option.noConfusion hstep
          | exited => exact Option.noConfusion hstep
  | handlerExit j =>
      simp only [step] at hstep
      cases hget : s.handlers[j]? with
      | none => rw [hget] at hstep; exact Option.noConfusion hstep
      | some ph =>
          rw [hget] at hstep
          cases ph with
          | racing =>
              injection hstep with hs'
              subst hs'
              have hji : j ≠ i := by
                intro hji
                rw [hji, hp] at hget
                exact absurd (Option.some.inj hget) (by simp)
              exact ⟨(List.getElem?_set_ne hji).trans hp, hd⟩
          | parked => exact Option.noConfusion hstep
          | exited => exact Option.noConfusion hstep
  | coordDrop =>
      simp only [step] at hstep
      split at hstep
      · injection hstep with hs'; subst hs'; exact ⟨hp, hd⟩
      · exact Option.noConfusion hstep
  | drainRecv =>
      simp only [step] at hstep
      split at hstep
      · next hg =>
          simp only [Bool.and_eq_true] at hg
          have hall := List.all_eq_true.mp hg.2 _ (mem_of_index hp)
          exact absurd (eq_of_beq hall) (by simp)
      · exact Option.noConfusion hstep

/-! ### The semaphore is never closed -/

/-- No program step closes the `limit_connections` semaphore. -/
theorem step_semClosed {s s' : SysState} {a : Action} (hstep : step s a = some s') :
    s'.semClosed = s.semClosed := by
  cases a with
  | acquire =>
      simp only [step] at hstep
      split at hstep
      · exact Option.noConfusion hstep
      · injection hstep with hs'; subst hs'; rfl
  | spawn =>
      simp only [step] at hstep
      split at hstep
      · exact Option.noConfusion hstep
      · injection hstep with hs'; subst hs'; rfl
  | listenerStop =>
      simp only [step] at hstep
      split at hstep
      · exact Option.noConfusion hstep
      · injection hstep with hs'; subst hs'; rfl
  | wake i =>
      simp only [step] at hstep
      cases hget : s.handlers[i]? with
      | none => rw [hget] at hstep; exact Option.noConfusion hstep
      | some ph =>
          rw [hget] at hstep
          cases ph with
          | parked => injection hstep with hs'; subst hs'; rfl
          | racing => exact Option.noConfusion hstep
          | exited => exact Option.noConfusion hstep
  | raceContinue i =>
      simp only [step] at hstep
      cases hget : s.handlers[i]? with
      | none => rw [hget] at hstep; exact Option.noConfusion hstep
      | some ph =>
          rw [hget] at hstep
          cases ph with
          | racing => injection hstep with hs'; subst hs'; rfl
          | parked => exact Option.noConfusion hstep
          | exited => exact Option.noConfusion hstep
  | handlerExit i =>
      simp only [step] at hstep
      cases hget : s.handlers[i]? with
      | none => rw [hget] at hstep; exact Option.noConfusion hstep
      | some ph =>
          rw [hget] at hstep
          cases ph with
          | racing => injection hstep with hs'; subst hs'; rfl
          | parked => exact Option.noConfusion hstep
          | exited => exact Option.noConfusion hstep
  | coordDrop =>
      simp only [step] at hstep
      split at hstep
      · injection hstep with hs'; subst hs'; rfl
      · exact Option.noConfusion hstep
  | drainRecv =>
      simp only [step] at hstep
      split at hstep
      · injection hstep with hs'; subst hs'; rfl
      · exact Option.noConfusion hstep

/-- The semaphore stays unclosed along any run of enabled steps. -/
theorem runActions_semClosed : ∀ (acts : List Action) {s s' : SysState},
    runActions s acts = some s' → s'.semClosed = s.semClosed
  | [], s, s', h => by
      simp only [runActions, Option.some.injEq] at h
      subst h
      rfl
  | a :: rest, s, s', h => by
      simp only [runActions] at h
      cases hstep : step s a with
      | none => rw [hstep] at h; exact Option.noConfusion h
      | some s2 =>
          rw [hstep] at h
          exact (runActions_semClosed rest h).trans (step_semClosed hstep)

/-! ### Claim theorems on the transition system -/

/-- C4: after the shutdown trigger fires, `start_server` does not return until
every spawned handler task has exited and dropped its completion-channel
clone: in any reachable state in which `shutdown_complete_rx.recv()` has
resolved, the coordinator has already dropped `notify_shutdown` and
`shutdown_complete_tx`, and every spawned handler task has exited. -/
theorem drain_completeness (n : Nat) (acts : List Action) (s : SysState)
    (h : runActions (initState n) acts = some s) (hd : s.drained = true) :
    s.coordDropped = true ∧ ∀ x ∈ s.handlers, x = HPhase.exited := by
  have h0 : drainInv (initState n) := by
    constructor
    · intro hc
      exact absurd hc (by simp [initState])
    · intro hdr
      exact absurd hdr (by simp [initState])
  exact (runActions_drainInv acts h h0).2 hd

/-- Witness: a run that admits one connection, lets its handler exit, stops
the listener, drops the coordinator senders and resolves the drain; the
theorem applies to its final state. -/
theorem drain_completeness_w :
    stateAfterDrain.coordDropped = true
    ∧ ∀ x ∈ stateAfterDrain.handlers, x = HPhase.exited :=
  drain_completeness 2
    [Action.acquire, Action.spawn, Action.wake 0, Action.handlerExit 0,
     Action.listenerStop, Action.coordDrop, Action.drainRecv]
    stateAfterDrain (by decide) (by decide)

/-- C5: with pool capacity `n` fixed by `Semaphore::new(max_clients)`, no
reachable state has more than `n` non-exited handler tasks: each admitted
connection holds one permit for its whole lifetime, so outstanding leases
never exceed capacity. -/
theorem admission_bound (n : Nat) (acts : List Action) (s : SysState)
    (h : runActions (initState n) acts = some s) :
    countActive s.handlers ≤ n := by
  have h0 : permitInv (initState n) := by
    simp [permitInv, heldPermits, initState, countActive]
  obtain ⟨hi, hc⟩ := runActions_permitInv acts h h0
  simp only [initState] at hc
  simp only [permitInv, heldPermits] at hi
  rw [hc] at hi
  rcases Bool.eq_false_or_eq_true s.listenerHoldsPermit with hb | hb <;>
    rw [hb] at hi <;> simp at hi <;> omega

/-- Witness: after admitting and waking one connection under capacity 1, the
count of active handlers is bounded by 1. -/
theorem admission_bound_w :
    countActive stateOneRacing.handlers ≤ 1 :=
  admission_bound 1 [Action.acquire, Action.spawn, Action.wake 0] stateOneRacing (by decide)

/-- C6: permits are conserved on every reachable state - free permits plus
the listener's in-hand permit plus one permit per non-exited handler equal
the capacity - so each handler exit path releases exactly one permit, and
once every handler has exited (and no permit is in the listener's hand) the
pool is back to its baseline. -/
theorem permit_conservation (n : Nat) (acts : List Action) (s : SysState)
    (h : runActions (initState n) acts = some s) :
    s.available + ((if s.listenerHoldsPermit then 1 else 0) + countActive s.handlers) = n
    ∧ ((∀ x ∈ s.handlers, x = HPhase.exited) → s.listenerHoldsPermit = false →
        s.available = n) := by
  have h0 : permitInv (initState n) := by
    simp [permitInv, heldPermits, initState, countActive]
  obtain ⟨hi, hc⟩ := runActions_permitInv acts h h0
  simp only [initState] at hc
  simp only [permitInv, heldPermits] at hi
  rw [hc] at hi
  refine ⟨hi, fun hall hheld => ?_⟩
  have hz : countActive s.handlers = 0 := by
    apply List.countP_eq_zero.mpr
    intro x hx
    rw [hall x hx]
    simp [isActive]
  rw [hheld, hz] at hi
  simpa using hi

/-- Witness: one admitted connection runs to exit under capacity 1; the
conservation equation and the baseline property hold at the final state. -/
theorem permit_conservation_w :
    stateOneExited.available
      + ((if stateOneExited.listenerHoldsPermit then 1 else 0)
          + countActive stateOneExited.handlers) = 1
    ∧ ((∀ x ∈ stateOneExited.handlers, x = HPhase.exited)
        → stateOneExited.listenerHoldsPermit = false
        → stateOneExited.available = 1) :=
  permit_conservation 1 [Action.acquire, Action.spawn, Action.wake 0, Action.handlerExit 0]
    stateOneExited (by decide)

/-- C8: a handler parked in `notified().await` does not observe shutdown -
along any run whose steps never include that handler's readiness wake, the
handler stays parked and the drain receive cannot resolve, even if the
coordinator drops the shutdown-broadcast sender along the way. -/
theorem parked_handler_stays_parked (i : Nat) (acts : List Action) (s s' : SysState)
    (h : runActions s acts = some s') (hnw : Action.wake i ∉ acts)
    (hp : s.handlers[i]? = some HPhase.parked) (hd : s.drained = false) :
    s'.handlers[i]? = some HPhase.parked ∧ s'.drained = false := by
  induction acts generalizing s with
  | nil =>
      simp only [runActions, Option.some.injEq] at h
      subst h
      exact ⟨hp, hd⟩
  | cons a rest ih =>
      simp only [runActions] at h
      cases hstep : step s a with
      | none => rw [hstep] at h; exact Option.noConfusion h
      | some s2 =>
          rw [hstep] at h
          have hna : a ≠ Action.wake i := by
            intro he
            exact hnw (by rw [he]; exact List.mem_cons_self _ _)
          obtain ⟨hp2, hd2⟩ := step_parked hstep hna hp hd
          exact ih s2 h (fun hm => hnw (List.mem_cons_of_mem _ hm)) hp2 hd2

/-- Witness: a parked handler survives the coordinator dropping its senders;
the drain receive still has not resolved. -/
theorem parked_handler_stays_parked_w :
    stateOneParkedDropped.handlers[0]? = some HPhase.parked
    ∧ stateOneParkedDropped.drained = false :=
  parked_handler_stays_parked 0 [Action.coordDrop] stateOneParked stateOneParkedDropped
    (by decide) (by decide) (by decide) (by decide)

/-- C10: the `unwrap` on `acquire_owned` never panics - the semaphore is
created once in `TcpServer::new` and no program step closes it, so in every
reachable state the acquire, once it resolves, yields `Ok`. -/
theorem acquire_unwrap_never_fails (n : Nat) (acts : List Action) (s : SysState)
    (h : runActions (initState n) acts = some s) :
    s.semClosed = false ∧ acquireOwnedResult s = Except.ok () := by
  have hc := runActions_semClosed acts h
  simp only [initState] at hc
  refine ⟨hc, ?_⟩
  simp [acquireOwnedResult, hc]

/-- Witness: after one permit acquisition the semaphore is still open and the
acquire result is `Ok`. -/
theorem acquire_unwrap_never_fails_w :
    stateOneAcquired.semClosed = false
    ∧ acquireOwnedResult stateOneAcquired = Except.ok () :=
  acquire_unwrap_never_fails 1 [Action.acquire] stateOneAcquired (by decide)

/-! ### Claim theorems on the functional models -/

/-- C9: `SocketHandler::run` never returns an error: on every input it is
either still suspended or returns `Ok(())` - a failed read leaves its select
branch unmatched, write outcomes are discarded, and the EOF and shutdown
paths both return `Ok` - so the `Err` branch of the spawned task (the
connection-error log) is unreachable. -/
theorem handler_run_always_ok (sd : Bool) (iters : List (List SelectOutcome)) :
    socketHandlerRun sd iters = none
    ∨ socketHandlerRun sd iters = some (Except.ok ()) := by
  cases sd with
  | true => exact Or.inr (by simp [socketHandlerRun])
  | false =>
      induction iters with
      | nil => exact Or.inl rfl
      | cons iter rest ih =>
          simp only [socketHandlerRun]
          cases hsel : selectResolve iter with
          | none => exact Or.inl rfl
          | some r =>
              cases r with
              | wrote => exact ih
              | readOk n =>
                  by_cases hn : n = 0
                  · simp [hn]
                  · simpa [hn] using ih
              | shutdown => exact Or.inr rfl

/-- C1: the program behavior at the failing input.  A racing iteration in
which `read_packet` resolves with an I/O error and `write_packet` also
resolves with an I/O error does not end the handler: the write branch body is
`{}`, so the loop runs a further iteration, and the handler later returns
`Ok(())` on EOF - never an `Err` for the spawned task to log.  A lone failed
read leaves the select pending entirely. -/
theorem ioError_not_closing :
    socketHandlerRun false
        [[SelectOutcome.readDone (Except.error "connection reset by peer"),
          SelectOutcome.writeDone (Except.error "broken pipe")],
         [SelectOutcome.readDone (Except.ok 0)]]
      = some (Except.ok ())
    ∧ socketHandlerRun false
        [[SelectOutcome.readDone (Except.error "connection reset by peer")]]
      = none :=
  ⟨rfl, rfl⟩

/-- C2 counterexample: in a successful listener-loop iteration the permit
acquisition occurs strictly before the accept, so the claimed order (accept
first, permit afterwards) is false on this concrete iteration. -/
theorem permit_before_accept_cex :
    ((listenerIteration (Except.ok ()) (Except.ok ()) (some "peer")).1.indexOf
        ListenerAct.acquirePermit)
      < ((listenerIteration (Except.ok ()) (Except.ok ()) (some "peer")).1.indexOf
        ListenerAct.acceptConn) := by
  decide

/-- C2 (amended): in every listener-loop iteration the admission permit is
acquired first and the connection is accepted afterwards, so when the pool is
exhausted the listener suspends before calling accept and the OS accept queue
is not drained; both admission and accept are gated. -/
theorem permit_acquired_before_accept (acceptRes nodelayRes : Except String Unit)
    (peerAddrRes : Option String) :
    ∃ t, (listenerIteration acceptRes nodelayRes peerAddrRes).1
      = ListenerAct.acquirePermit :: ListenerAct.acceptConn :: t := by
  cases acceptRes with
  | error e => exact ⟨[], rfl⟩
  | ok u =>
      cases nodelayRes with
      | error e => exact ⟨[ListenerAct.setNodelay], rfl⟩
      | ok v =>
          cases peerAddrRes with
          | none => exact ⟨[ListenerAct.setNodelay, ListenerAct.peerAddr], rfl⟩
          | some addr =>
              exact ⟨[ListenerAct.setNodelay, ListenerAct.peerAddr,
                ListenerAct.spawnHandler], rfl⟩

/-- C3 counterexample: a `set_nodelay` failure - an error arising after the
connection has been accepted - propagates out of `TcpServer::run` via `?`
instead of staying local to the connection, so the claim that only accept
errors propagate is false at this concrete input. -/
theorem nodelay_error_propagates_cex :
    (listenerIteration (Except.ok ()) (Except.error "setsockopt failed")
        (some "peer")).2
      = IterOutcome.listenerErr "setsockopt failed" := rfl

/-- C3 (amended): characterization of the listener-loop error paths - an
error propagates out of `TcpServer::run` exactly when accept fails or
`set_nodelay` fails after a successful accept, and the `peer_addr` `unwrap`
panics exactly when the lookup fails after both succeed.  Per-connection
handler I/O errors never reach the listener (the handler never returns
`Err`). -/
theorem listener_error_propagation (acceptRes nodelayRes : Except String Unit)
    (peerAddrRes : Option String) (e : String) :
    ((listenerIteration acceptRes nodelayRes peerAddrRes).2 = IterOutcome.listenerErr e
      ↔ acceptRes = Except.error e
        ∨ (acceptRes = Except.ok () ∧ nodelayRes = Except.error e))
    ∧ ((listenerIteration acceptRes nodelayRes peerAddrRes).2 = IterOutcome.unwrapFailure
      ↔ acceptRes = Except.ok () ∧ nodelayRes = Except.ok () ∧ peerAddrRes = none) := by
  cases acceptRes with
  | error ea =>
      simp [listenerIteration]
  | ok u =>
      cases u
      cases nodelayRes with
      | error en =>
          simp [listenerIteration]
      | ok v =>
          cases v
          cases peerAddrRes with
          | none => simp [listenerIteration]
          | some addr => simp [listenerIteration]

/-- C7: under persistent accept failure the retry loop is not infinite - with
backoff starting at 1 and doubling on each consecutive failure, it sleeps
1 + 2 + 4 + 8 + 16 + 32 + 64 = 127 seconds and then gives up on the eighth
failure, when backoff (128) has exceeded the ceiling of 64, surfacing the
error; the total elapsed retry delay at give-up reaches the ceiling. -/
theorem accept_backoff_gives_up (e : String) (k : Nat) (h : 8 ≤ k) :
    acceptLoop (List.replicate k (Except.error e)) = some (Except.error e, 127)
    ∧ 64 ≤ 127 := by
  obtain ⟨m, rfl⟩ := Nat.exists_eq_add_of_le h
  refine ⟨?_, by omega⟩
  rw [Nat.add_comm]
  simp [acceptLoop, acceptFrom, List.replicate_succ]

/-- Witness: nine consecutive accept failures make the loop give up with the
error after 127 seconds of accumulated backoff. -/
theorem accept_backoff_gives_up_w :
    8 ≤ 9
    ∧ (acceptLoop (List.replicate 9 (Except.error "accept failed"))
          = some (Except.error "accept failed", 127)
        ∧ 64 ≤ 127) :=
  ⟨by decide, accept_backoff_gives_up "accept failed" 9 (by decide)⟩

end Mic2Net
